import Mathlib

/-!
Verification of the order-preserving set `sset` from `batbelt/structs.py`.

The Python class stores, per instance:
  * `self.end`  : a sentinel node `[None, prev, next]` of a circular doubly
    linked list (the node is the Python list object `end`);
  * `self.map`  : a dict mapping each key to its node `[key, prev, next]`.

We embed the mutable node graph as a heap `Nat → Option (Node α)` where the
sentinel lives at address `0` and every data node is allocated at a fresh
positive address (`fresh` is the allocation counter).  The dict becomes an
association list `List (α × Nat)` from keys to node addresses.  Each Python
method is translated statement by statement; branches that Python could only
reach through a broken object graph (e.g. dereferencing a missing node, which
would raise at run time) return the state unchanged and are unreachable for
well-formed states.
-/

namespace Batbelt

/-- A node `[key, prev, next]` of the doubly linked list.  The sentinel is the
unique node whose `key` is `none`. -/
structure Node (α : Type) where
  key : Option α
  prev : Nat
  next : Nat
deriving DecidableEq

/-- The Python object graph: a partial map from addresses to nodes. -/
abbrev Heap (α : Type) := Nat → Option (Node α)

/-- Write node `n` at address `i` (Python mutates the node in place). -/
def hupdate (h : Heap α) (i : Nat) (n : Node α) : Heap α :=
  fun j => if j = i then some n else h j

/-- State of a Python `sset` instance: the node heap (sentinel at address 0),
the key-to-node dict `map`, and the next fresh address. -/
structure sset (α : Type) where
  heap : Heap α
  map : List (α × Nat)
  fresh : Nat

/-- `key in self.map` lookup of the Python dict, as an association list scan. -/
def lookupId [DecidableEq α] : List (α × Nat) → α → Option Nat
  | [], _ => none
  | (k, v) :: rest, x => if k = x then some v else lookupId rest x

/-- `self.map.pop(key)`: remove the binding of `key` from the dict. -/
def mapErase [DecidableEq α] : List (α × Nat) → α → List (α × Nat)
  | [], _ => []
  | (k, v) :: rest, x => if k = x then mapErase rest x else (k, v) :: mapErase rest x

/-- `__init__` with no iterable: `self.end = [None, end, end]`, `self.map = {}`. -/
def sset.empty : sset α where
  heap := fun i => if i = 0 then some ⟨none, 0, 0⟩ else none
  map := []
  fresh := 1

/-- `__len__`: `len(self.map)`. -/
def sset.size (s : sset α) : Nat := s.map.length

/-- `__contains__`: `key in self.map`. -/
def sset.contains [DecidableEq α] (s : sset α) (key : α) : Bool :=
  (lookupId s.map key).isSome

/-- `add`:
```
if key not in self.map:
    end = self.end
    curr = end[PREV]
    curr[NEXT] = end[PREV] = self.map[key] = [key, curr, end]
```
The chained assignment first builds the node `[key, curr, end]` (allocated at
the fresh address), then writes it into `curr[NEXT]`, `end[PREV]` and
`self.map[key]`. -/
def sset.add [DecidableEq α] (s : sset α) (key : α) : sset α :=
  match lookupId s.map key with
  | some _ => s
  | none =>
    match s.heap 0 with
    | none => s
    | some endNode =>
      let curr := endNode.prev
      match s.heap curr with
      | none => s
      | some currNode =>
        let h1 := hupdate s.heap curr { currNode with next := s.fresh }
        match h1 0 with
        | none => s
        | some endNode1 =>
          let h2 := hupdate h1 0 { endNode1 with prev := s.fresh }
          let h3 := hupdate h2 s.fresh { key := some key, prev := curr, next := 0 }
          { heap := h3, map := (key, s.fresh) :: s.map, fresh := s.fresh + 1 }

/-- `discard`:
```
if key in self.map:
    key, prev, next = self.map.pop(key)
    prev[NEXT] = next
    next[PREV] = prev
```
The removed node itself becomes garbage; we leave it in the heap, like Python
does until the garbage collector runs. -/
def sset.discard [DecidableEq α] (s : sset α) (key : α) : sset α :=
  match lookupId s.map key with
  | none => s
  | some nid =>
    match s.heap nid with
    | none => s
    | some node =>
      match s.heap node.prev with
      | none => s
      | some prevNode =>
        let h1 := hupdate s.heap node.prev { prevNode with next := node.next }
        match h1 node.next with
        | none => s
        | some nextNode =>
          let h2 := hupdate h1 node.next { nextNode with prev := node.prev }
          { heap := h2, map := mapErase s.map key, fresh := s.fresh }

/-- `__iter__` body: walk `next` pointers from `curr` until the sentinel,
yielding keys.  Python terminates because the ring is finite; we carry explicit
fuel, always called with more fuel than there are elements. -/
def iterAux [DecidableEq α] (h : Heap α) : Nat → Nat → List α
  | 0, _ => []
  | fuel + 1, curr =>
    if curr = 0 then []
    else
      match h curr with
      | none => []
      | some n =>
        match n.key with
        | some k => k :: iterAux h fuel n.next
        | none => iterAux h fuel n.next

/-- `list(self)` via `__iter__`: `curr = end[NEXT]`, walk forward. -/
def sset.iterate [DecidableEq α] (s : sset α) : List α :=
  match s.heap 0 with
  | none => []
  | some e => iterAux s.heap (s.map.length + 1) e.next

/-- `__reversed__` body: walk `prev` pointers from `curr` until the sentinel. -/
def revIterAux [DecidableEq α] (h : Heap α) : Nat → Nat → List α
  | 0, _ => []
  | fuel + 1, curr =>
    if curr = 0 then []
    else
      match h curr with
      | none => []
      | some n =>
        match n.key with
        | some k => k :: revIterAux h fuel n.prev
        | none => revIterAux h fuel n.prev

/-- `list(reversed(self))` via `__reversed__`: `curr = end[PREV]`, walk back. -/
def sset.reverseIterate [DecidableEq α] (s : sset α) : List α :=
  match s.heap 0 with
  | none => []
  | some e => revIterAux s.heap (s.map.length + 1) e.prev

/-- The walk of `__iter__` recorded as node addresses instead of keys; this is
the list of non-sentinel nodes reachable forward from the sentinel. -/
def fwdIdsAux [DecidableEq α] (h : Heap α) : Nat → Nat → List Nat
  | 0, _ => []
  | fuel + 1, curr =>
    if curr = 0 then []
    else
      match h curr with
      | none => []
      | some n => curr :: fwdIdsAux h fuel n.next

/-- Addresses of the nodes visited by the forward walk from the sentinel. -/
def sset.forwardIds [DecidableEq α] (s : sset α) : List Nat :=
  match s.heap 0 with
  | none => []
  | some e => fwdIdsAux s.heap (s.map.length + 1) e.next

/-- The one declared failure of the component.  `emptyContainer` models the
`KeyError('set is empty')` that `pop` raises on an empty set (the spec calls
this error kind `EmptyContainer`); `iterExhausted` models the `StopIteration`
that `next()` would raise if the walk yielded nothing, which cannot happen on a
well-formed nonempty state. -/
inductive PopError where
  | emptyContainer
  | iterExhausted
deriving DecidableEq

/-- `pop`:
```
if not self: raise KeyError('set is empty')
key = next(reversed(self)) if last else next(iter(self))
self.discard(key)
return key
``` -/
def sset.pop [DecidableEq α] (s : sset α) (last : Bool := true) :
    Except PopError (α × sset α) :=
  if s.map.isEmpty then .error .emptyContainer
  else
    match (if last then s.reverseIterate else s.iterate) with
    | [] => .error .iterExhausted
    | key :: _ => .ok (key, s.discard key)

/-- `__init__(iterable)`: `self |= iterable`, i.e. `add` each element in order
(the `MutableSet.__ior__` loop). -/
def sset.ofList [DecidableEq α] (S : List α) : sset α :=
  S.foldl sset.add sset.empty

/-- `__eq__` against another `sset`:
`len(self) == len(other) and list(self) == list(other)`. -/
def ssetEq [DecidableEq α] (s t : sset α) : Bool :=
  decide (s.map.length = t.map.length) && decide (s.iterate = t.iterate)

/-- `__eq__` against a non-`sset` value: `set(self) == set(other)`.  The other
operand is any iterable, embedded by the list of elements it yields. -/
def eqSet [DecidableEq α] (s : sset α) (other : List α) : Bool :=
  decide (s.iterate.toFinset = other.toFinset)

/-- Repeatedly `pop` until the set errors out (or fuel runs out), collecting
the returned keys.  This is the draining loop the spec describes. -/
def sset.drain [DecidableEq α] : sset α → Bool → Nat → List α
  | _, _, 0 => []
  | s, last, fuel + 1 =>
    match s.pop last with
    | .error _ => []
    | .ok kt => kt.1 :: sset.drain kt.2 last fuel

/-- Abstract insertion: the effect of `add` on the iteration order. -/
def addAbs [DecidableEq α] (l : List α) (k : α) : List α :=
  if k ∈ l then l else l ++ [k]

/-- The distinct elements of `S` in order of first occurrence. -/
def distinctInOrder [DecidableEq α] (S : List α) : List α :=
  S.foldl addAbs []

/-- `seg h p ids l e = true` states that the heap `h` realises a doubly linked
segment holding keys `l` on the nodes at addresses `ids`: the first node's
`prev` is `p`, consecutive nodes point at each other, and the last node's
`next` is `e`.  All the addresses are non-sentinel (nonzero). -/
def seg [DecidableEq α] (h : Heap α) : Nat → List Nat → List α → Nat → Bool
  | _, [], [], _ => true
  | p, id :: ids, k :: l, e =>
    decide (id ≠ 0) && decide (h id = some ⟨some k, p, ids.headD e⟩) && seg h id ids l e
  | _, _, _, _ => false

/-- Representation invariant of an `sset` state: `ids` are the addresses of the
data nodes in forward order and `l` their keys.  The sentinel closes the ring,
the dict is (up to dict-internal ordering) exactly the key/address association
of the ring, dict keys are unique, and every ring address is below the
allocation counter. -/
def RepIds [DecidableEq α] (s : sset α) (ids : List Nat) (l : List α) : Prop :=
  s.heap 0 = some ⟨none, ids.getLastD 0, ids.headD 0⟩ ∧
  seg s.heap 0 ids l 0 = true ∧
  ids.Nodup ∧
  l.Nodup ∧
  (∀ id ∈ ids, id < s.fresh) ∧
  0 < s.fresh ∧
  s.map.Perm (l.zip ids) ∧
  (s.map.map Prod.fst).Nodup

/-- A state represents the abstract ordered list `l`. -/
def Rep [DecidableEq α] (s : sset α) (l : List α) : Prop :=
  ∃ ids, RepIds s ids l

/-- States reachable by the public lifecycle: construction from an iterable
followed by any sequence of `add`, `discard` and successful `pop` calls. -/
inductive Reachable [DecidableEq α] : sset α → Prop where
  | construct (S : List α) : Reachable (sset.ofList S)
  | addStep (s : sset α) (k : α) : Reachable s → Reachable (s.add k)
  | discardStep (s : sset α) (k : α) : Reachable s → Reachable (s.discard k)
  | popStep (s : sset α) (last : Bool) (k : α) (t : sset α) :
      Reachable s → s.pop last = .ok (k, t) → Reachable t

instance RepIds.instDecidable [DecidableEq α] (s : sset α) (ids : List Nat)
    (l : List α) : Decidable (RepIds s ids l) := by
  unfold RepIds
  infer_instance

/-! ### Heap update and dict helper lemmas -/

@[simp]
theorem hupdate_same (h : Heap α) (i : Nat) (n : Node α) : hupdate h i n i = some n := by
  simp [hupdate]

theorem hupdate_ne (h : Heap α) {i j : Nat} (n : Node α) (hij : j ≠ i) :
    hupdate h i n j = h j := by
  simp [hupdate, hij]

theorem lookup_mem [DecidableEq α] {m : List (α × Nat)} {k : α} {v : Nat}
    (h : lookupId m k = some v) : (k, v) ∈ m := by
  induction m with
  | nil => simp [lookupId] at h
  | cons p rest ih =>
    obtain ⟨k0, v0⟩ := p
    by_cases hk : k0 = k
    · subst hk
      simp [lookupId] at h
      simp [h]
    · simp [lookupId, hk] at h
      exact List.mem_cons_of_mem _ (ih h)

theorem lookup_eq_none_iff [DecidableEq α] {m : List (α × Nat)} {k : α} :
    lookupId m k = none ↔ ∀ v, (k, v) ∉ m := by
  induction m with
  | nil => simp [lookupId]
  | cons p rest ih =>
    obtain ⟨k0, v0⟩ := p
    by_cases hk : k0 = k
    · subst hk
      constructor
      · intro h
        simp [lookupId] at h
      · intro h
        exact absurd (List.mem_cons_self _ _) (h v0)
    · rw [show lookupId ((k0, v0) :: rest) k = lookupId rest k by simp [lookupId, hk], ih]
      constructor
      · intro h v hv
        rcases List.mem_cons.1 hv with he | hm
        · cases he
          exact hk rfl
        · exact h v hm
      · intro h v hv
        exact h v (List.mem_cons_of_mem _ hv)

theorem lookup_isSome_of_mem [DecidableEq α] {m : List (α × Nat)} {k : α} {v : Nat}
    (h : (k, v) ∈ m) : lookupId m k ≠ none := by
  intro hn
  exact lookup_eq_none_iff.1 hn v h

theorem mapErase_eq_filter [DecidableEq α] (m : List (α × Nat)) (k : α) :
    mapErase m k = m.filter (fun p => decide (p.1 ≠ k)) := by
  induction m with
  | nil => rfl
  | cons p rest ih =>
    obtain ⟨k0, v0⟩ := p
    by_cases hk : k0 = k
    · subst hk
      simp [mapErase, List.filter, ih]
    · simp [mapErase, hk, List.filter, ih]

theorem mapErase_perm [DecidableEq α] {m m' : List (α × Nat)} (h : m.Perm m') (k : α) :
    (mapErase m k).Perm (mapErase m' k) := by
  rw [mapErase_eq_filter, mapErase_eq_filter]
  exact h.filter _

theorem mapErase_of_forall_ne [DecidableEq α] {m : List (α × Nat)} {k : α}
    (h : ∀ p ∈ m, p.1 ≠ k) : mapErase m k = m := by
  induction m with
  | nil => rfl
  | cons p rest ih =>
    obtain ⟨k0, v0⟩ := p
    have hk : k0 ≠ k := h (k0, v0) (List.mem_cons_self _ _)
    simp [mapErase, hk]
    exact ih fun q hq => h q (List.mem_cons_of_mem _ hq)

theorem lookup_perm_of_nodupkeys [DecidableEq α] {m m' : List (α × Nat)}
    (hp : m.Perm m') (hnd : (m.map Prod.fst).Nodup) (k : α) :
    lookupId m k = lookupId m' k := by
  induction hp with
  | nil => rfl
  | cons p _ ih =>
    obtain ⟨k0, v0⟩ := p
    simp only [List.map_cons, List.nodup_cons] at hnd
    by_cases hk : k0 = k
    · subst hk
      simp [lookupId]
    · simp [lookupId, hk]
      exact ih hnd.2
  | swap p q rest =>
    obtain ⟨k0, v0⟩ := p
    obtain ⟨k1, v1⟩ := q
    simp only [List.map_cons, List.nodup_cons, List.mem_cons] at hnd
    have hne : k1 ≠ k0 := fun hcontra => hnd.1 (Or.inl hcontra)
    by_cases h0 : k0 = k
    · subst h0
      simp [lookupId, hne]
    · by_cases h1 : k1 = k
      · subst h1
        simp [lookupId, h0]
      · simp [lookupId, h0, h1]
  | trans p12 _ ih1 ih2 =>
    have hnd2 : _ := ((p12.map Prod.fst).nodup_iff).1 hnd
    rw [ih1 hnd, ih2 hnd2]

theorem lookupZip_eq_none_iff [DecidableEq α] {l : List α} {ids : List Nat}
    (hlen : l.length = ids.length) (k : α) :
    lookupId (l.zip ids) k = none ↔ k ∉ l := by
  induction l generalizing ids with
  | nil => simp [lookupId]
  | cons a l ih =>
    cases ids with
    | nil => simp at hlen
    | cons id ids =>
      simp only [List.length_cons, Nat.succ.injEq] at hlen
      by_cases ha : a = k
      · subst ha
        simp [List.zip_cons_cons, lookupId]
      · have hka : k ≠ a := fun hcontra => ha hcontra.symm
        rw [List.zip_cons_cons,
          show lookupId ((a, id) :: l.zip ids) k = lookupId (l.zip ids) k by
            simp [lookupId, ha],
          ih hlen]
        simp [hka]

/-! ### headD and getLastD helpers -/

theorem headD_append (a b : List Nat) (e : Nat) :
    (a ++ b).headD e = a.headD (b.headD e) := by
  cases a <;> simp

theorem headD_mem {l : List Nat} (h : l ≠ []) (d : Nat) : l.headD d ∈ l := by
  cases l with
  | nil => exact absurd rfl h
  | cons a l => simp

theorem getLastD_mem {l : List Nat} (h : l ≠ []) (d : Nat) : l.getLastD d ∈ l := by
  induction l generalizing d with
  | nil => exact absurd rfl h
  | cons a l ih =>
    rw [List.getLastD_cons]
    cases l with
    | nil => simp
    | cons b l => exact List.mem_cons_of_mem _ (ih (by simp) a)

/-! ### Segment lemmas -/

theorem seg_cons_iff [DecidableEq α] (h : Heap α) (p e id : Nat) (ids : List Nat)
    (k : α) (l : List α) :
    seg h p (id :: ids) (k :: l) e = true ↔
      id ≠ 0 ∧ h id = some ⟨some k, p, ids.headD e⟩ ∧ seg h id ids l e = true := by
  simp [seg, Bool.and_eq_true, decide_eq_true_eq, and_assoc]

theorem seg_nil_iff [DecidableEq α] (h : Heap α) (p e : Nat) (l : List α) :
    seg h p [] l e = true ↔ l = [] := by
  cases l <;> simp [seg]

theorem seg_cons_nil_false [DecidableEq α] (h : Heap α) (p e id : Nat) (ids : List Nat) :
    seg h p (id :: ids) [] e = false := by
  simp [seg]

theorem seg_length [DecidableEq α] {h : Heap α} {p e : Nat} {ids : List Nat}
    {l : List α} (hs : seg h p ids l e = true) : ids.length = l.length := by
  induction ids generalizing p l with
  | nil => rw [seg_nil_iff] at hs; simp [hs]
  | cons id ids ih =>
    cases l with
    | nil => rw [seg_cons_nil_false] at hs; cases hs
    | cons k l =>
      rw [seg_cons_iff] at hs
      simp [ih hs.2.2]

theorem seg_ne_zero [DecidableEq α] {h : Heap α} {p e : Nat} {ids : List Nat}
    {l : List α} (hs : seg h p ids l e = true) : ∀ id ∈ ids, id ≠ 0 := by
  induction ids generalizing p l with
  | nil => simp
  | cons id ids ih =>
    cases l with
    | nil => rw [seg_cons_nil_false] at hs; cases hs
    | cons k l =>
      rw [seg_cons_iff] at hs
      intro j hj
      rcases List.mem_cons.1 hj with hj | hj
      · subst hj; exact hs.1
      · exact ih hs.2.2 j hj

theorem seg_congr [DecidableEq α] {h h' : Heap α} {p e : Nat} {ids : List Nat}
    {l : List α} (hagree : ∀ i ∈ ids, h' i = h i) :
    seg h' p ids l e = seg h p ids l e := by
  induction ids generalizing p l with
  | nil => cases l <;> simp [seg]
  | cons id ids ih =>
    cases l with
    | nil => simp [seg]
    | cons k l =>
      have hid : h' id = h id := hagree id (List.mem_cons_self _ _)
      have htail : ∀ i ∈ ids, h' i = h i :=
        fun i hi => hagree i (List.mem_cons_of_mem _ hi)
      simp only [seg, hid, ih htail]

theorem seg_append [DecidableEq α] {h : Heap α} (p e : Nat) (a b : List Nat)
    (la lb : List α) (hlen : a.length = la.length) :
    seg h p (a ++ b) (la ++ lb) e = true ↔
      (seg h p a la (b.headD e) = true ∧ seg h (a.getLastD p) b lb e = true) := by
  induction a generalizing p la with
  | nil =>
    have hla : la = [] := List.length_eq_zero.1 hlen.symm
    subst hla
    simp [seg_nil_iff]
  | cons id a ih =>
    cases la with
    | nil => simp at hlen
    | cons k la =>
      simp only [List.length_cons, Nat.succ.injEq] at hlen
      simp only [List.cons_append, seg_cons_iff, List.getLastD_cons, ih id la hlen,
        headD_append, and_assoc]

theorem seg_iterAux [DecidableEq α] {h : Heap α} {p : Nat} {ids : List Nat}
    {l : List α} (hs : seg h p ids l 0 = true) :
    ∀ fuel, l.length ≤ fuel → iterAux h fuel (ids.headD 0) = l := by
  induction ids generalizing p l with
  | nil =>
    rw [seg_nil_iff] at hs
    subst hs
    intro fuel _
    cases fuel <;> simp [iterAux]
  | cons id ids ih =>
    cases l with
    | nil => rw [seg_cons_nil_false] at hs; cases hs
    | cons k l =>
      rw [seg_cons_iff] at hs
      intro fuel hfuel
      cases fuel with
      | zero => simp at hfuel
      | succ f =>
        simp only [List.headD_cons, iterAux, if_neg hs.1, hs.2.1]
        exact congrArg (k :: ·) (ih hs.2.2 f (Nat.le_of_succ_le_succ hfuel))

theorem seg_fwdIdsAux [DecidableEq α] {h : Heap α} {p : Nat} {ids : List Nat}
    {l : List α} (hs : seg h p ids l 0 = true) :
    ∀ fuel, ids.length ≤ fuel → fwdIdsAux h fuel (ids.headD 0) = ids := by
  induction ids generalizing p l with
  | nil =>
    intro fuel _
    cases fuel <;> simp [fwdIdsAux]
  | cons id ids ih =>
    cases l with
    | nil => rw [seg_cons_nil_false] at hs; cases hs
    | cons k l =>
      rw [seg_cons_iff] at hs
      intro fuel hfuel
      cases fuel with
      | zero => simp at hfuel
      | succ f =>
        simp only [List.headD_cons, fwdIdsAux, if_neg hs.1, hs.2.1]
        exact congrArg (id :: ·) (ih hs.2.2 f (Nat.le_of_succ_le_succ hfuel))

theorem seg_revIterAux [DecidableEq α] {h : Heap α} {ids : List Nat} :
    ∀ {l : List α} {e : Nat}, seg h 0 ids l e = true →
    ∀ fuel, l.length ≤ fuel → revIterAux h fuel (ids.getLastD 0) = l.reverse := by
  induction ids using List.reverseRecOn with
  | nil =>
    intro l e hs fuel _
    rw [seg_nil_iff] at hs
    subst hs
    cases fuel <;> simp [revIterAux]
  | append_singleton a id ih =>
    intro l e hs fuel hfuel
    have hlen := seg_length hs
    simp only [List.length_append, List.length_singleton] at hlen
    have hlne : l ≠ [] := by
      intro hl
      subst hl
      simp at hlen
    obtain ⟨la, k, hsplit⟩ : ∃ la k, l = la ++ [k] :=
      ⟨l.dropLast, l.getLast hlne, (List.dropLast_append_getLast hlne).symm⟩
    subst hsplit
    simp only [List.length_append, List.length_singleton] at hlen
    have hla : a.length = la.length := by omega
    rw [seg_append 0 e a [id] la [k] hla] at hs
    have hone := hs.2
    rw [seg_cons_iff] at hone
    have hid0 : id ≠ 0 := hone.1
    have hnode : h id = some ⟨some k, a.getLastD 0, e⟩ := by
      simpa using hone.2.1
    cases fuel with
    | zero =>
      exfalso
      simp at hfuel
    | succ f =>
      rw [List.getLastD_concat, revIterAux, if_neg hid0, hnode]
      simp only [List.reverse_append, List.reverse_singleton, List.singleton_append]
      refine congrArg (k :: ·) ?_
      have hpref : seg h 0 a la id = true := by
        simpa using hs.1
      have hf : la.length ≤ f := by
        simp only [List.length_append, List.length_singleton] at hfuel
        omega
      exact ih hpref f hf

theorem seg_node_of_mem_zip [DecidableEq α] {h : Heap α} {p e : Nat} {ids : List Nat}
    {l : List α} (hs : seg h p ids l e = true) {k : α} {nid : Nat}
    (hmem : (k, nid) ∈ l.zip ids) :
    ∃ pr nx, h nid = some ⟨some k, pr, nx⟩ := by
  induction ids generalizing p l with
  | nil =>
    rw [seg_nil_iff] at hs
    subst hs
    simp at hmem
  | cons id ids ih =>
    cases l with
    | nil => rw [seg_cons_nil_false] at hs; cases hs
    | cons k0 l =>
      rw [seg_cons_iff] at hs
      rw [List.zip_cons_cons, List.mem_cons] at hmem
      rcases hmem with hmem | hmem
      · cases hmem
        exact ⟨p, ids.headD e, hs.2.1⟩
      · exact ih hs.2.2 hmem

theorem seg_mem_ids [DecidableEq α] {h : Heap α} {p e : Nat} {ids : List Nat}
    {l : List α} (hs : seg h p ids l e = true) {nid : Nat} (hmem : nid ∈ ids) :
    ∃ k pr nx, h nid = some ⟨some k, pr, nx⟩ ∧ (k, nid) ∈ l.zip ids := by
  induction ids generalizing p l with
  | nil => simp at hmem
  | cons id ids ih =>
    cases l with
    | nil => rw [seg_cons_nil_false] at hs; cases hs
    | cons k0 l =>
      rw [seg_cons_iff] at hs
      rcases List.mem_cons.1 hmem with hmem | hmem
      · subst hmem
        exact ⟨k0, p, ids.headD e, hs.2.1, by simp⟩
      · obtain ⟨k, pr, nx, hn, hz⟩ := ih hs.2.2 hmem
        exact ⟨k, pr, nx, hn, by simp [hz]⟩

/-! ### Consequences of the representation invariant -/

theorem RepIds.zip_length [DecidableEq α] {s : sset α} {ids : List Nat} {l : List α}
    (hr : RepIds s ids l) : (l.zip ids).length = l.length := by
  rw [List.length_zip, seg_length hr.2.1, Nat.min_self]

theorem RepIds.mapLength [DecidableEq α] {s : sset α} {ids : List Nat} {l : List α}
    (hr : RepIds s ids l) : s.map.length = l.length := by
  rw [hr.2.2.2.2.2.2.1.length_eq, hr.zip_length]

theorem RepIds.lookup_eq [DecidableEq α] {s : sset α} {ids : List Nat} {l : List α}
    (hr : RepIds s ids l) (k : α) : lookupId s.map k = lookupId (l.zip ids) k :=
  lookup_perm_of_nodupkeys hr.2.2.2.2.2.2.1 hr.2.2.2.2.2.2.2 k

theorem RepIds.lookup_none_iff [DecidableEq α] {s : sset α} {ids : List Nat}
    {l : List α} (hr : RepIds s ids l) (k : α) :
    lookupId s.map k = none ↔ k ∉ l := by
  rw [hr.lookup_eq k]
  exact lookupZip_eq_none_iff (seg_length hr.2.1).symm k

theorem RepIds.iterateEq [DecidableEq α] {s : sset α} {ids : List Nat} {l : List α}
    (hr : RepIds s ids l) : s.iterate = l := by
  rw [sset.iterate, hr.1]
  exact seg_iterAux hr.2.1 (s.map.length + 1) (by rw [hr.mapLength]; omega)

theorem RepIds.reverseIterateEq [DecidableEq α] {s : sset α} {ids : List Nat}
    {l : List α} (hr : RepIds s ids l) : s.reverseIterate = l.reverse := by
  rw [sset.reverseIterate, hr.1]
  exact seg_revIterAux hr.2.1 (s.map.length + 1) (by rw [hr.mapLength]; omega)

theorem RepIds.forwardIds_eq [DecidableEq α] {s : sset α} {ids : List Nat}
    {l : List α} (hr : RepIds s ids l) : s.forwardIds = ids := by
  rw [sset.forwardIds, hr.1]
  exact seg_fwdIdsAux hr.2.1 (s.map.length + 1)
    (by rw [hr.mapLength, ← seg_length hr.2.1]; omega)

theorem repIds_empty [DecidableEq α] : RepIds (sset.empty : sset α) [] [] := by
  refine ⟨rfl, rfl, List.nodup_nil, List.nodup_nil, by simp, Nat.one_pos, ?_, ?_⟩
  · simp [sset.empty]
  · simp [sset.empty]

/-! ### Named accessors for the invariant -/

theorem RepIds.sentinel [DecidableEq α] {s : sset α} {ids : List Nat} {l : List α}
    (hr : RepIds s ids l) : s.heap 0 = some ⟨none, ids.getLastD 0, ids.headD 0⟩ := hr.1

theorem RepIds.chain [DecidableEq α] {s : sset α} {ids : List Nat} {l : List α}
    (hr : RepIds s ids l) : seg s.heap 0 ids l 0 = true := hr.2.1

theorem RepIds.idsNodup [DecidableEq α] {s : sset α} {ids : List Nat} {l : List α}
    (hr : RepIds s ids l) : ids.Nodup := hr.2.2.1

theorem RepIds.keysNodup [DecidableEq α] {s : sset α} {ids : List Nat} {l : List α}
    (hr : RepIds s ids l) : l.Nodup := hr.2.2.2.1

theorem RepIds.idsLt [DecidableEq α] {s : sset α} {ids : List Nat} {l : List α}
    (hr : RepIds s ids l) : ∀ id ∈ ids, id < s.fresh := hr.2.2.2.2.1

theorem RepIds.freshPos [DecidableEq α] {s : sset α} {ids : List Nat} {l : List α}
    (hr : RepIds s ids l) : 0 < s.fresh := hr.2.2.2.2.2.1

theorem RepIds.mapPerm [DecidableEq α] {s : sset α} {ids : List Nat} {l : List α}
    (hr : RepIds s ids l) : s.map.Perm (l.zip ids) := hr.2.2.2.2.2.2.1

theorem RepIds.mapKeysNodup [DecidableEq α] {s : sset α} {ids : List Nat} {l : List α}
    (hr : RepIds s ids l) : (s.map.map Prod.fst).Nodup := hr.2.2.2.2.2.2.2

theorem RepIds.fresh_not_mem [DecidableEq α] {s : sset α} {ids : List Nat}
    {l : List α} (hr : RepIds s ids l) : s.fresh ∉ ids :=
  fun hmem => Nat.lt_irrefl _ (hr.idsLt _ hmem)

theorem key_not_mem_of_lookup_none [DecidableEq α] {m : List (α × Nat)} {k : α}
    (h : lookupId m k = none) : k ∉ m.map Prod.fst := by
  intro hmem
  obtain ⟨p, hp, hfst⟩ := List.mem_map.1 hmem
  obtain ⟨k0, v0⟩ := p
  cases hfst
  exact lookup_eq_none_iff.1 h v0 hp

theorem headD_of_ne_nil {l : List Nat} (h : l ≠ []) (d d' : Nat) :
    l.headD d = l.headD d' := by
  cases l with
  | nil => exact absurd rfl h
  | cons a l => simp

/-! ### Preservation of the invariant by `add` -/

theorem add_of_lookup_some [DecidableEq α] {s : sset α} {k : α} {v : Nat}
    (h : lookupId s.map k = some v) : s.add k = s := by
  simp [sset.add, h]

theorem RepIds.add_of_mem [DecidableEq α] {s : sset α} {ids : List Nat} {l : List α}
    (hr : RepIds s ids l) {k : α} (hk : k ∈ l) : s.add k = s := by
  cases hv : lookupId s.map k with
  | none => exact absurd hk ((hr.lookup_none_iff k).1 hv)
  | some v => exact add_of_lookup_some hv

theorem add_eval_base [DecidableEq α] {s : sset α} {k : α}
    (hlook : lookupId s.map k = none)
    (hsent : s.heap 0 = some ⟨none, 0, 0⟩) :
    s.add k = sset.mk
      (hupdate (hupdate (hupdate s.heap 0 ⟨none, 0, s.fresh⟩) 0 ⟨none, s.fresh, s.fresh⟩)
        s.fresh ⟨some k, 0, 0⟩)
      ((k, s.fresh) :: s.map) (s.fresh + 1) := by
  simp only [sset.add, hlook, hsent]
  simp [hupdate_same]

theorem add_eval_snoc [DecidableEq α] {s : sset α} {k : α} {lastid hd : Nat} {kl : α}
    {ap : Nat} (hlook : lookupId s.map k = none) (hne : lastid ≠ 0)
    (hsent : s.heap 0 = some ⟨none, lastid, hd⟩)
    (hcurr : s.heap lastid = some ⟨some kl, ap, 0⟩) :
    s.add k = sset.mk
      (hupdate (hupdate (hupdate s.heap lastid ⟨some kl, ap, s.fresh⟩) 0 ⟨none, s.fresh, hd⟩)
        s.fresh ⟨some k, lastid, 0⟩)
      ((k, s.fresh) :: s.map) (s.fresh + 1) := by
  simp only [sset.add, hlook, hsent, hcurr]
  rw [show (hupdate s.heap lastid ⟨some kl, ap, s.fresh⟩) 0 = s.heap 0 from
    hupdate_ne s.heap _ (Ne.symm hne), hsent]

theorem repIds_add_of_not_mem [DecidableEq α] {s : sset α} {ids : List Nat}
    {l : List α} (hr : RepIds s ids l) {k : α} (hk : k ∉ l) :
    RepIds (s.add k) (ids ++ [s.fresh]) (l ++ [k]) := by
  have hlook : lookupId s.map k = none := (hr.lookup_none_iff k).2 hk
  have hF0 : s.fresh ≠ 0 := Nat.pos_iff_ne_zero.1 hr.freshPos
  have h0F : (0 : Nat) ≠ s.fresh := fun h => hF0 h.symm
  have hkeys : k ∉ s.map.map Prod.fst := key_not_mem_of_lookup_none hlook
  rcases eq_or_ne ids [] with hids | hids
  · -- the set was empty: `curr` is the sentinel itself
    subst hids
    have hl : l = [] := by
      have := seg_length hr.chain
      simpa using List.length_eq_zero.1 this.symm
    subst hl
    have hsent : s.heap 0 = some ⟨none, 0, 0⟩ := hr.sentinel
    have hmap : s.map = [] := hr.mapPerm.eq_nil
    rw [add_eval_base hlook hsent]
    unfold RepIds
    dsimp only
    simp only [List.nil_append]
    refine ⟨?_, ?_, by simp, by simp, ?_, by omega, ?_, ?_⟩
    · rw [hupdate_ne _ _ h0F, hupdate_same]
      rfl
    · rw [seg_cons_iff]
      exact ⟨hF0, by rw [hupdate_same]; rfl, rfl⟩
    · intro id hid
      rw [List.mem_singleton.1 hid]
      omega
    · rw [hmap]
      simp
    · rw [hmap]
      simp
  · -- the set was nonempty: `curr` is the last data node
    obtain ⟨a, lastid, rfl⟩ : ∃ a lastid, ids = a ++ [lastid] :=
      ⟨ids.dropLast, ids.getLast hids, (List.dropLast_append_getLast hids).symm⟩
    have hlne : l ≠ [] := by
      intro hl
      have := seg_length hr.chain
      rw [hl] at this
      simp at this
    obtain ⟨la, kl, rfl⟩ : ∃ la kl, l = la ++ [kl] :=
      ⟨l.dropLast, l.getLast hlne, (List.dropLast_append_getLast hlne).symm⟩
    have hseg := hr.chain
    have hlen : a.length = la.length := by
      have := seg_length hseg
      simp only [List.length_append, List.length_singleton] at this
      omega
    rw [seg_append 0 0 a [lastid] la [kl] hlen] at hseg
    have hs1 : seg s.heap 0 a la lastid = true := by
      simpa using hseg.1
    have hs2 := hseg.2
    rw [seg_cons_iff] at hs2
    have hlast0 : lastid ≠ 0 := hs2.1
    have hcurr : s.heap lastid = some ⟨some kl, a.getLastD 0, 0⟩ := by
      simpa using hs2.2.1
    have hsent : s.heap 0 = some ⟨none, lastid, (a ++ [lastid]).headD 0⟩ := by
      rw [hr.sentinel, List.getLastD_concat]
    have hFids : s.fresh ∉ a ++ [lastid] := hr.fresh_not_mem
    have hlasta : lastid ∉ a := by
      have := hr.idsNodup
      rw [List.nodup_append] at this
      intro hmem
      exact this.2.2 hmem (List.mem_singleton_self _)
    have hFa : s.fresh ∉ a := fun hmem => hFids (List.mem_append_left _ hmem)
    have hFlast : s.fresh ≠ lastid := by
      intro h
      exact hFids (List.mem_append_right _ (by rw [h]; exact List.mem_singleton_self _))
    have ha0 : ∀ i ∈ a, i ≠ 0 := seg_ne_zero hs1
    have hklk : k ∉ la := fun hmem => hk (List.mem_append_left _ hmem)
    rw [add_eval_snoc hlook hlast0 hsent hcurr]
    unfold RepIds
    dsimp only
    -- agreement of the new heap with the old one on the prefix nodes
    have hagree : ∀ i ∈ a,
        (hupdate (hupdate (hupdate s.heap lastid ⟨some kl, a.getLastD 0, s.fresh⟩) 0
          ⟨none, s.fresh, (a ++ [lastid]).headD 0⟩) s.fresh ⟨some k, lastid, 0⟩) i
          = s.heap i := by
      intro i hi
      have hiF : i ≠ s.fresh := by
        intro h
        rw [h] at hi
        exact hFa hi
      have hil : i ≠ lastid := by
        intro h
        rw [h] at hi
        exact hlasta hi
      rw [hupdate_ne _ _ hiF, hupdate_ne _ _ (ha0 i hi), hupdate_ne _ _ hil]
    refine ⟨?_, ?_, ?_, ?_, ?_, by omega, ?_, ?_⟩
    · -- sentinel field
      rw [hupdate_ne _ _ h0F, hupdate_same, List.getLastD_concat]
      have hhd : ((a ++ [lastid]) ++ [s.fresh]).headD 0 = (a ++ [lastid]).headD 0 := by
        rw [headD_append]
        exact headD_of_ne_nil (by simp) _ _
      rw [hhd]
    · -- chain field
      have hlen2 : (a ++ [lastid]).length = (la ++ [kl]).length := by
        simp [hlen]
      rw [seg_append 0 0 (a ++ [lastid]) [s.fresh] (la ++ [kl]) [k] hlen2]
      constructor
      · -- the old chain, retargeted to end at the new node
        rw [show List.headD [s.fresh] 0 = s.fresh from rfl,
          seg_append 0 s.fresh a [lastid] la [kl] hlen]
        constructor
        · rw [show List.headD [lastid] s.fresh = lastid from rfl, seg_congr hagree]
          exact hs1
        · rw [seg_cons_iff]
          refine ⟨hlast0, ?_, rfl⟩
          rw [hupdate_ne _ _ (Ne.symm hFlast), hupdate_ne _ _ hlast0, hupdate_same]
          rfl
      · -- the new node closes the ring
        rw [seg_cons_iff, List.getLastD_concat]
        exact ⟨hF0, by rw [hupdate_same]; rfl, rfl⟩
    · -- ids nodup
      rw [List.nodup_append]
      exact ⟨hr.idsNodup, List.nodup_singleton _,
        fun x hx hxF => hFids (by rwa [List.mem_singleton.1 hxF] at hx)⟩
    · -- keys nodup
      rw [List.nodup_append]
      exact ⟨hr.keysNodup, List.nodup_singleton _,
        fun x hx hxk => hk (by rwa [List.mem_singleton.1 hxk] at hx)⟩
    · -- allocation bound
      intro id hid
      rcases List.mem_append.1 hid with hid | hid
      · exact Nat.lt_succ_of_lt (hr.idsLt id hid)
      · rw [List.mem_singleton.1 hid]
        omega
    · -- dict permutation
      rw [List.zip_append (seg_length hr.chain).symm]
      exact (hr.mapPerm.cons (k, s.fresh)).trans
        (List.perm_append_singleton _ _).symm
    · -- dict keys nodup
      simp only [List.map_cons, List.nodup_cons]
      exact ⟨hkeys, hr.mapKeysNodup⟩

/-! ### Preservation of the invariant by `discard` -/

theorem getLastD_append (x y : List Nat) (d : Nat) :
    (x ++ y).getLastD d = y.getLastD (x.getLastD d) := by
  induction x generalizing d with
  | nil => simp
  | cons a x ih => rw [List.cons_append, List.getLastD_cons, ih, List.getLastD_cons]

theorem getLastD_of_ne_nil {l : List Nat} (h : l ≠ []) (d d' : Nat) :
    l.getLastD d = l.getLastD d' := by
  cases l with
  | nil => exact absurd rfl h
  | cons a l => rw [List.getLastD_cons, List.getLastD_cons]

theorem mapErase_append [DecidableEq α] (m1 m2 : List (α × Nat)) (k : α) :
    mapErase (m1 ++ m2) k = mapErase m1 k ++ mapErase m2 k := by
  rw [mapErase_eq_filter, mapErase_eq_filter, mapErase_eq_filter, List.filter_append]

theorem mapErase_keys_nodup [DecidableEq α] {m : List (α × Nat)} {k : α}
    (h : (m.map Prod.fst).Nodup) : ((mapErase m k).map Prod.fst).Nodup := by
  rw [mapErase_eq_filter]
  exact h.sublist (List.Sublist.map _ (List.filter_sublist m))

theorem mapErase_cons_self [DecidableEq α] (m : List (α × Nat)) (k : α) (v : Nat) :
    mapErase ((k, v) :: m) k = mapErase m k := by
  simp [mapErase]

theorem lookup_append_of_keys_ne [DecidableEq α] {m1 : List (α × Nat)} {k : α}
    (h : ∀ p ∈ m1, p.1 ≠ k) (m2 : List (α × Nat)) :
    lookupId (m1 ++ m2) k = lookupId m2 k := by
  induction m1 with
  | nil => rfl
  | cons p rest ih =>
    obtain ⟨k0, v0⟩ := p
    have hk : k0 ≠ k := h (k0, v0) (List.mem_cons_self _ _)
    rw [List.cons_append,
      show lookupId ((k0, v0) :: (rest ++ m2)) k = lookupId (rest ++ m2) k by
        simp [lookupId, hk]]
    exact ih fun q hq => h q (List.mem_cons_of_mem _ hq)

theorem discard_of_lookup_none [DecidableEq α] {s : sset α} {k : α}
    (h : lookupId s.map k = none) : s.discard k = s := by
  simp [sset.discard, h]

theorem RepIds.discard_of_not_mem [DecidableEq α] {s : sset α} {ids : List Nat}
    {l : List α} (hr : RepIds s ids l) {k : α} (hk : k ∉ l) : s.discard k = s :=
  discard_of_lookup_none ((hr.lookup_none_iff k).2 hk)

theorem discard_eval_ne [DecidableEq α] {s : sset α} {k : α} {nid : Nat}
    {key0 : Option α} {pr nx : Nat} {pn qn : Node α}
    (hlook : lookupId s.map k = some nid)
    (hnid : s.heap nid = some ⟨key0, pr, nx⟩)
    (hprev : s.heap pr = some pn) (hne : nx ≠ pr) (hnext : s.heap nx = some qn) :
    s.discard k = sset.mk
      (hupdate (hupdate s.heap pr ⟨pn.key, pn.prev, nx⟩) nx ⟨qn.key, pr, qn.next⟩)
      (mapErase s.map k) s.fresh := by
  simp only [sset.discard, hlook, hnid, hprev]
  rw [show (hupdate s.heap pr ⟨pn.key, pn.prev, nx⟩) nx = s.heap nx from
    hupdate_ne s.heap _ hne, hnext]

theorem discard_eval_alias [DecidableEq α] {s : sset α} {k : α} {nid : Nat}
    {key0 : Option α} {pr nx : Nat} {pn : Node α}
    (hlook : lookupId s.map k = some nid)
    (hnid : s.heap nid = some ⟨key0, pr, nx⟩)
    (hprev : s.heap pr = some pn) (heq : nx = pr) :
    s.discard k = sset.mk
      (hupdate (hupdate s.heap pr ⟨pn.key, pn.prev, nx⟩) nx ⟨pn.key, pr, nx⟩)
      (mapErase s.map k) s.fresh := by
  subst heq
  simp only [sset.discard, hlook, hnid, hprev, hupdate_same]

theorem repIds_discard_split [DecidableEq α] {s : sset α} {i1 i2 : List Nat}
    {l1 l2 : List α} {nid : Nat} {k : α}
    (hr : RepIds s (i1 ++ nid :: i2) (l1 ++ k :: l2))
    (hlen1 : i1.length = l1.length) :
    RepIds (s.discard k) (i1 ++ i2) (l1 ++ l2) := by
  -- dict and key facts shared by all cases
  have hzip : (l1 ++ k :: l2).zip (i1 ++ nid :: i2)
      = l1.zip i1 ++ (k, nid) :: l2.zip i2 := by
    rw [List.zip_append hlen1.symm, List.zip_cons_cons]
  have hknodup := hr.keysNodup
  rw [List.nodup_append] at hknodup
  have hkl1 : k ∉ l1 := fun hmem => hknodup.2.2 hmem (List.mem_cons_self _ _)
  have hkl2 : k ∉ l2 := by
    have := hknodup.2.1
    rw [List.nodup_cons] at this
    exact this.1
  have hidnodup := hr.idsNodup
  rw [List.nodup_append] at hidnodup
  have hnidi1 : nid ∉ i1 := fun hmem => hidnodup.2.2 hmem (List.mem_cons_self _ _)
  have hnidi2 : nid ∉ i2 := by
    have := hidnodup.2.1
    rw [List.nodup_cons] at this
    exact this.1
  have hdisj : ∀ x ∈ i1, x ∉ i2 := fun x hx hx2 =>
    hidnodup.2.2 hx (List.mem_cons_of_mem _ hx2)
  have hne0 := seg_ne_zero hr.chain
  have h01 : ∀ x ∈ i1, x ≠ 0 := fun x hx => hne0 x (List.mem_append_left _ hx)
  have h02 : ∀ x ∈ i2, x ≠ 0 := fun x hx =>
    hne0 x (List.mem_append_right _ (List.mem_cons_of_mem _ hx))
  have hnid0 : nid ≠ 0 := hne0 nid (List.mem_append_right _ (List.mem_cons_self _ _))
  have hkeysz1 : ∀ p ∈ l1.zip i1, p.1 ≠ k := by
    intro p hp
    obtain ⟨pk, pv⟩ := p
    intro hcontra
    subst hcontra
    exact hkl1 (List.of_mem_zip hp).1
  have hkeysz2 : ∀ p ∈ l2.zip i2, p.1 ≠ k := by
    intro p hp
    obtain ⟨pk, pv⟩ := p
    intro hcontra
    subst hcontra
    exact hkl2 (List.of_mem_zip hp).1
  have hlook : lookupId s.map k = some nid := by
    rw [hr.lookup_eq k, hzip, lookup_append_of_keys_ne hkeysz1]
    simp [lookupId]
  -- chain decomposition shared by all cases
  have hchain := hr.chain
  rw [seg_append 0 0 i1 (nid :: i2) l1 (k :: l2) hlen1] at hchain
  have hsA : seg s.heap 0 i1 l1 nid = true := by
    simpa using hchain.1
  have hsB := hchain.2
  rw [seg_cons_iff] at hsB
  have hnid : s.heap nid = some ⟨some k, i1.getLastD 0, i2.headD 0⟩ := hsB.2.1
  have hsC : seg s.heap nid i2 l2 0 = true := hsB.2.2
  have hlenC : i2.length = l2.length := seg_length hsC
  -- target fields shared by all cases
  have hPerm : (mapErase s.map k).Perm ((l1 ++ l2).zip (i1 ++ i2)) := by
    have h1 := mapErase_perm hr.mapPerm k
    rw [hzip, mapErase_append, mapErase_cons_self, mapErase_of_forall_ne hkeysz1,
      mapErase_of_forall_ne hkeysz2] at h1
    rw [List.zip_append hlen1.symm]
    exact h1
  have hKeysN : ((mapErase s.map k).map Prod.fst).Nodup :=
    mapErase_keys_nodup hr.mapKeysNodup
  have hN1 : (i1 ++ i2).Nodup := by
    rw [List.nodup_append]
    refine ⟨hidnodup.1, ?_, fun x hx hx2 => hdisj x hx hx2⟩
    have := hidnodup.2.1
    rw [List.nodup_cons] at this
    exact this.2
  have hN2 : (l1 ++ l2).Nodup := by
    rw [List.nodup_append]
    refine ⟨hknodup.1, ?_, fun x hx hx2 => hknodup.2.2 hx (List.mem_cons_of_mem _ hx2)⟩
    have := hknodup.2.1
    rw [List.nodup_cons] at this
    exact this.2
  have hLt : ∀ id ∈ i1 ++ i2, id < s.fresh := by
    intro id hid
    rcases List.mem_append.1 hid with hid | hid
    · exact hr.idsLt id (List.mem_append_left _ hid)
    · exact hr.idsLt id (List.mem_append_right _ (List.mem_cons_of_mem _ hid))
  rcases eq_or_ne i1 [] with rfl | h1ne
  · have hl1 : l1 = [] := List.length_eq_zero.1 hlen1.symm
    subst hl1
    simp only [List.getLastD_nil, List.headD_nil] at hnid
    cases i2 with
    | nil =>
      have hl2 : l2 = [] := by
        have := seg_length hsC
        exact List.length_eq_zero.1 this.symm
      subst hl2
      have hsent : s.heap 0 = some ⟨none, nid, nid⟩ := by
        have := hr.sentinel
        simpa using this
      simp only [List.headD_nil] at hnid
      rw [discard_eval_alias hlook hnid hsent rfl]
      unfold RepIds
      dsimp only
      exact ⟨rfl, rfl, by simp, by simp, by simp, hr.freshPos, hPerm, hKeysN⟩
    | cons nb i2p =>
      cases l2 with
      | nil => simp at hlenC
      | cons kb l2p =>
        rw [seg_cons_iff] at hsC
        have hnb0 : nb ≠ 0 := hsC.1
        have hnbnode : s.heap nb = some ⟨some kb, nid, i2p.headD 0⟩ := hsC.2.1
        have hsCp : seg s.heap nb i2p l2p 0 = true := hsC.2.2
        have hnbi2p : nb ∉ i2p := by
          have := hidnodup.2.1
          rw [List.nodup_cons, List.nodup_cons] at this
          exact this.2.1
        have hsent : s.heap 0 = some ⟨none, (nid :: nb :: i2p).getLastD 0, nid⟩ := by
          have := hr.sentinel
          simpa using this
        simp only [List.headD_cons] at hnid
        rw [discard_eval_ne hlook hnid hsent hnb0 hnbnode]
        unfold RepIds
        dsimp only
        simp only [List.nil_append]
        refine ⟨?_, ?_, ?_, ?_, ?_, hr.freshPos, hPerm, hKeysN⟩
        · rw [hupdate_ne _ _ (fun h => hnb0 h.symm), hupdate_same]
          rw [List.getLastD_cons, List.headD_cons,
            getLastD_of_ne_nil (List.cons_ne_nil nb i2p) nid 0]
        · rw [seg_cons_iff]
          refine ⟨hnb0, by rw [hupdate_same], ?_⟩
          rw [seg_congr ?agree]
          · exact hsCp
          case agree =>
            intro i hi
            have hinb : i ≠ nb := fun h => hnbi2p (h ▸ hi)
            have hi0 : i ≠ 0 := h02 i (List.mem_cons_of_mem _ hi)
            rw [hupdate_ne _ _ hinb, hupdate_ne _ _ hi0]
        · simpa using hN1
        · simpa using hN2
        · simpa using hLt
  · obtain ⟨a, pid, rfl⟩ : ∃ a pid, i1 = a ++ [pid] :=
      ⟨i1.dropLast, i1.getLast h1ne, (List.dropLast_append_getLast h1ne).symm⟩
    have hl1ne : l1 ≠ [] := by
      intro hl
      rw [hl] at hlen1
      simp at hlen1
    obtain ⟨la, kp, rfl⟩ : ∃ la kp, l1 = la ++ [kp] :=
      ⟨l1.dropLast, l1.getLast hl1ne, (List.dropLast_append_getLast hl1ne).symm⟩
    have hlena : a.length = la.length := by
      simp only [List.length_append, List.length_singleton] at hlen1
      omega
    rw [seg_append 0 nid a [pid] la [kp] hlena] at hsA
    have hsA1 : seg s.heap 0 a la pid = true := by
      simpa using hsA.1
    have hsA2 := hsA.2
    rw [seg_cons_iff] at hsA2
    have hpid0 : pid ≠ 0 := hsA2.1
    have hpidnode : s.heap pid = some ⟨some kp, a.getLastD 0, nid⟩ := by
      simpa using hsA2.2.1
    have hpida : pid ∉ a := by
      have := hidnodup.1
      rw [List.nodup_append] at this
      intro hmem
      exact this.2.2 hmem (List.mem_singleton_self _)
    have ha0 : ∀ i ∈ a, i ≠ 0 := seg_ne_zero hsA1
    simp only [List.getLastD_concat] at hnid
    cases i2 with
    | nil =>
      have hl2 : l2 = [] := by
        have := seg_length hsC
        exact List.length_eq_zero.1 this.symm
      subst hl2
      simp only [List.headD_nil] at hnid
      have hsent : s.heap 0 = some ⟨none, nid, (a ++ [pid]).headD 0⟩ := by
        have h0 := hr.sentinel
        rw [show (a ++ [pid]) ++ nid :: [] = (a ++ [pid]) ++ [nid] from rfl,
          List.getLastD_concat, headD_append] at h0
        rw [h0, headD_of_ne_nil (by simp) (List.headD [nid] 0) 0]
      rw [discard_eval_ne hlook hnid hpidnode (Ne.symm hpid0) hsent]
      unfold RepIds
      dsimp only
      simp only [List.append_nil]
      refine ⟨?_, ?_, ?_, ?_, ?_, hr.freshPos, ?_, hKeysN⟩
      · rw [hupdate_same, List.getLastD_concat]
      · rw [seg_append 0 0 a [pid] la [kp] hlena]
        refine ⟨?_, ?_⟩
        · rw [show List.headD [pid] (0 : Nat) = pid from rfl, seg_congr ?agree]
          · exact hsA1
          case agree =>
            intro i hi
            have hip : i ≠ pid := fun h => hpida (h ▸ hi)
            rw [hupdate_ne _ _ (ha0 i hi), hupdate_ne _ _ hip]
        · rw [seg_cons_iff]
          refine ⟨hpid0, ?_, rfl⟩
          rw [hupdate_ne _ _ hpid0, hupdate_same]
          rfl
      · simpa using hN1
      · simpa using hN2
      · simpa using hLt
      · simpa using hPerm
    | cons nb i2p =>
      cases l2 with
      | nil => simp at hlenC
      | cons kb l2p =>
        rw [seg_cons_iff] at hsC
        have hnb0 : nb ≠ 0 := hsC.1
        have hnbnode : s.heap nb = some ⟨some kb, nid, i2p.headD 0⟩ := hsC.2.1
        have hsCp : seg s.heap nb i2p l2p 0 = true := hsC.2.2
        have hnbi2p : nb ∉ i2p := by
          have := hidnodup.2.1
          rw [List.nodup_cons, List.nodup_cons] at this
          exact this.2.1
        have hpidnb : nb ≠ pid := by
          intro h
          exact hdisj pid (List.mem_append_right _ (List.mem_singleton_self _))
            (h ▸ List.mem_cons_self nb i2p)
        simp only [List.headD_cons] at hnid
        rw [discard_eval_ne hlook hnid hpidnode hpidnb hnbnode]
        unfold RepIds
        dsimp only
        refine ⟨?_, ?_, ?_, ?_, ?_, hr.freshPos, ?_, hKeysN⟩
        · rw [hupdate_ne _ _ (fun h => hnb0 h.symm), hupdate_ne _ _ (fun h => hpid0 h.symm),
            hr.sentinel]
          have e1 : ((a ++ [pid]) ++ nid :: nb :: i2p).getLastD 0
              = ((a ++ [pid]) ++ nb :: i2p).getLastD 0 := by
            rw [getLastD_append (a ++ [pid]) (nid :: nb :: i2p) 0,
              getLastD_append (a ++ [pid]) (nb :: i2p) 0, List.getLastD_cons]
            exact getLastD_of_ne_nil (List.cons_ne_nil _ _) _ _
          have e2 : ((a ++ [pid]) ++ nid :: nb :: i2p).headD 0
              = ((a ++ [pid]) ++ nb :: i2p).headD 0 := by
            rw [headD_append (a ++ [pid]) (nid :: nb :: i2p) 0,
              headD_append (a ++ [pid]) (nb :: i2p) 0]
            exact headD_of_ne_nil (by simp) _ _
          rw [e1, e2]
        · rw [seg_append 0 0 (a ++ [pid]) (nb :: i2p) (la ++ [kp]) (kb :: l2p)
            (by simp [hlena])]
          refine ⟨?_, ?_⟩
          · rw [List.headD_cons, seg_append 0 nb a [pid] la [kp] hlena]
            refine ⟨?_, ?_⟩
            · rw [show List.headD [pid] nb = pid from rfl, seg_congr ?agree]
              · exact hsA1
              case agree =>
                intro i hi
                have hip : i ≠ pid := fun h => hpida (h ▸ hi)
                have hinb : i ≠ nb := by
                  intro h
                  exact hdisj i (List.mem_append_left _ hi) (h ▸ List.mem_cons_self nb i2p)
                rw [hupdate_ne _ _ hinb, hupdate_ne _ _ hip]
            · rw [seg_cons_iff]
              refine ⟨hpid0, ?_, rfl⟩
              rw [hupdate_ne _ _ (Ne.symm hpidnb), hupdate_same]
              rfl
          · rw [List.getLastD_concat, seg_cons_iff]
            refine ⟨hnb0, by rw [hupdate_same], ?_⟩
            rw [seg_congr ?agree2]
            · exact hsCp
            case agree2 =>
              intro i hi
              have hinb : i ≠ nb := fun h => hnbi2p (h ▸ hi)
              have hip : i ≠ pid := by
                intro h
                subst h
                exact hdisj i (List.mem_append_right _ (List.mem_singleton_self _))
                  (List.mem_cons_of_mem _ hi)
              rw [hupdate_ne _ _ hinb, hupdate_ne _ _ hip]
        · exact hN1
        · exact hN2
        · exact hLt
        · exact hPerm

/-! ### Abstract-state lemmas -/

theorem rep_empty [DecidableEq α] : Rep (sset.empty : sset α) [] := ⟨[], repIds_empty⟩

theorem Rep.iterate_eq [DecidableEq α] {s : sset α} {l : List α} (h : Rep s l) :
    s.iterate = l := by
  obtain ⟨ids, hr⟩ := h
  exact hr.iterateEq

theorem Rep.reverseIterate_eq [DecidableEq α] {s : sset α} {l : List α}
    (h : Rep s l) : s.reverseIterate = l.reverse := by
  obtain ⟨ids, hr⟩ := h
  exact hr.reverseIterateEq

theorem Rep.map_length [DecidableEq α] {s : sset α} {l : List α} (h : Rep s l) :
    s.map.length = l.length := by
  obtain ⟨ids, hr⟩ := h
  exact hr.mapLength

theorem Rep.nodup [DecidableEq α] {s : sset α} {l : List α} (h : Rep s l) :
    l.Nodup := by
  obtain ⟨ids, hr⟩ := h
  exact hr.keysNodup

theorem Rep.add [DecidableEq α] {s : sset α} {l : List α} (h : Rep s l) (k : α) :
    Rep (s.add k) (addAbs l k) := by
  obtain ⟨ids, hr⟩ := h
  by_cases hk : k ∈ l
  · rw [addAbs, if_pos hk, hr.add_of_mem hk]
    exact ⟨ids, hr⟩
  · rw [addAbs, if_neg hk]
    exact ⟨ids ++ [s.fresh], repIds_add_of_not_mem hr hk⟩

theorem Rep.discard [DecidableEq α] {s : sset α} {l : List α} (h : Rep s l) (k : α) :
    Rep (s.discard k) (l.erase k) := by
  obtain ⟨ids, hr⟩ := h
  by_cases hk : k ∈ l
  · obtain ⟨i, hi, hk_eq⟩ := List.mem_iff_getElem.1 hk
    have hlen : ids.length = l.length := seg_length hr.chain
    have hi2 : i < ids.length := by omega
    have hlsplit : l = l.take i ++ k :: l.drop (i + 1) := by
      conv_lhs => rw [← List.take_append_drop i l]
      rw [List.drop_eq_getElem_cons hi, hk_eq]
    have hisplit : ids = ids.take i ++ ids[i] :: ids.drop (i + 1) := by
      conv_lhs => rw [← List.take_append_drop i ids]
      rw [List.drop_eq_getElem_cons hi2]
    have hr2 : RepIds s (ids.take i ++ ids[i] :: ids.drop (i + 1))
        (l.take i ++ k :: l.drop (i + 1)) := by
      rw [← hlsplit, ← hisplit]
      exact hr
    have hlen1 : (ids.take i).length = (l.take i).length := by
      rw [List.length_take, List.length_take, hlen]
    have hknotin : k ∉ l.take i := by
      have hnd := hr.keysNodup
      rw [hlsplit, List.nodup_append] at hnd
      exact fun hmem => hnd.2.2 hmem (List.mem_cons_self _ _)
    have herase : l.erase k = l.take i ++ l.drop (i + 1) := by
      conv_lhs => rw [hlsplit]
      rw [List.erase_append_right _ hknotin, List.erase_cons_head]
    rw [herase]
    exact ⟨ids.take i ++ ids.drop (i + 1), repIds_discard_split hr2 hlen1⟩
  · rw [List.erase_of_not_mem hk]
    obtain ⟨⟩ : True := trivial
    rw [hr.discard_of_not_mem hk]
    exact ⟨ids, hr⟩

theorem Rep.map_ne_nil [DecidableEq α] {s : sset α} {l : List α} (h : Rep s l)
    (hne : l ≠ []) : s.map.isEmpty = false := by
  have hlen := h.map_length
  cases hm : s.map with
  | nil =>
    rw [hm] at hlen
    exact absurd (List.length_eq_zero.1 hlen.symm) hne
  | cons p m => rfl

theorem reverse_eq_getLast_cons [DecidableEq α] {l : List α} (hne : l ≠ []) :
    l.reverse = l.getLast hne :: l.dropLast.reverse := by
  conv_lhs => rw [← List.dropLast_append_getLast hne]
  rw [List.reverse_append, List.reverse_singleton, List.singleton_append]

theorem erase_getLast_of_nodup [DecidableEq α] {l : List α} (hne : l ≠ [])
    (hnd : l.Nodup) : l.erase (l.getLast hne) = l.dropLast := by
  obtain ⟨la, a, hsplit⟩ : ∃ la a, l = la ++ [a] :=
    ⟨l.dropLast, l.getLast hne, (List.dropLast_append_getLast hne).symm⟩
  subst hsplit
  have hnotin : a ∉ la := by
    rw [List.nodup_append] at hnd
    exact fun hmem => hnd.2.2 hmem (List.mem_singleton_self _)
  have hlast : (la ++ [a]).getLast hne = a := List.getLast_append_singleton la
  rw [hlast, List.erase_append_right _ hnotin, List.erase_cons_head,
    List.append_nil, List.dropLast_concat]

theorem Rep.pop_true_eq [DecidableEq α] {s : sset α} {l : List α} (h : Rep s l)
    (hne : l ≠ []) :
    s.pop true = .ok (l.getLast hne, s.discard (l.getLast hne)) := by
  have hemp := h.map_ne_nil hne
  simp only [sset.pop, hemp, Bool.false_eq_true, if_false, if_true,
    h.reverseIterate_eq, reverse_eq_getLast_cons hne]

theorem Rep.pop_false_eq [DecidableEq α] {s : sset α} {l : List α} (h : Rep s l)
    (hne : l ≠ []) :
    s.pop false = .ok (l.head hne, s.discard (l.head hne)) := by
  have hemp := h.map_ne_nil hne
  obtain ⟨a, t, rfl⟩ : ∃ a t, l = a :: t :=
    ⟨l.head hne, l.tail, (List.head_cons_tail l hne).symm⟩
  simp only [sset.pop, hemp, Bool.false_eq_true, if_false, if_true, h.iterate_eq,
    List.head_cons]

theorem Rep.pop_empty_eq [DecidableEq α] {s : sset α} (h : Rep s ([] : List α))
    (last : Bool) : s.pop last = .error .emptyContainer := by
  have hmap : s.map = [] := List.length_eq_zero.1 (by simpa using h.map_length)
  rw [sset.pop, hmap]
  rfl

theorem Rep.pop_ok_rep [DecidableEq α] {s t : sset α} {l : List α} {k : α}
    {last : Bool} (h : Rep s l) (hok : s.pop last = .ok (k, t)) :
    k ∈ l ∧ t = s.discard k := by
  rcases eq_or_ne l [] with rfl | hne
  · rw [h.pop_empty_eq last] at hok
    cases hok
  · cases last with
    | true =>
      rw [h.pop_true_eq hne] at hok
      obtain ⟨hk, ht⟩ : l.getLast hne = k ∧ s.discard (l.getLast hne) = t := by
        have := Except.ok.inj hok
        exact ⟨congrArg Prod.fst this, congrArg Prod.snd this⟩
      subst hk
      exact ⟨List.getLast_mem hne, ht.symm⟩
    | false =>
      rw [h.pop_false_eq hne] at hok
      obtain ⟨hk, ht⟩ : l.head hne = k ∧ s.discard (l.head hne) = t := by
        have := Except.ok.inj hok
        exact ⟨congrArg Prod.fst this, congrArg Prod.snd this⟩
      subst hk
      exact ⟨List.head_mem hne, ht.symm⟩

theorem Rep.pop_error_iff [DecidableEq α] {s : sset α} {l : List α} (h : Rep s l)
    (last : Bool) :
    (s.pop last = .error .emptyContainer ↔ l = []) ∧
      ((∃ k t, s.pop last = .ok (k, t)) ↔ l ≠ []) := by
  rcases eq_or_ne l [] with rfl | hne
  · refine ⟨by simp [h.pop_empty_eq last], ?_⟩
    simp only [h.pop_empty_eq last]
    constructor
    · rintro ⟨k, t, hkt⟩
      cases hkt
    · intro hcontra
      exact absurd rfl hcontra
  · cases last with
    | true =>
      rw [h.pop_true_eq hne]
      refine ⟨⟨(fun hcontra => nomatch hcontra), fun hcontra => absurd hcontra hne⟩, ?_⟩
      exact ⟨fun _ => hne, fun _ => ⟨_, _, rfl⟩⟩
    | false =>
      rw [h.pop_false_eq hne]
      refine ⟨⟨(fun hcontra => nomatch hcontra), fun hcontra => absurd hcontra hne⟩, ?_⟩
      exact ⟨fun _ => hne, fun _ => ⟨_, _, rfl⟩⟩

theorem Rep.dropLast [DecidableEq α] {s : sset α} {l : List α} (h : Rep s l)
    (hne : l ≠ []) : Rep (s.discard (l.getLast hne)) l.dropLast := by
  have := h.discard (l.getLast hne)
  rwa [erase_getLast_of_nodup hne h.nodup] at this

theorem erase_head_eq_tail [DecidableEq α] {l : List α} (hne : l ≠ []) :
    l.erase (l.head hne) = l.tail := by
  obtain ⟨a, t, hsplit⟩ : ∃ a t, l = a :: t :=
    ⟨l.head hne, l.tail, (List.head_cons_tail l hne).symm⟩
  subst hsplit
  rw [List.head_cons, List.erase_cons_head, List.tail_cons]

theorem Rep.tail [DecidableEq α] {s : sset α} {l : List α} (h : Rep s l)
    (hne : l ≠ []) : Rep (s.discard (l.head hne)) l.tail := by
  have := h.discard (l.head hne)
  rwa [erase_head_eq_tail hne] at this

theorem rep_drain_true [DecidableEq α] :
    ∀ (n : Nat) (s : sset α) (l : List α), Rep s l → l.length = n →
      sset.drain s true n = l.reverse := by
  intro n
  induction n with
  | zero =>
    intro s l _ hlen
    rw [List.length_eq_zero.1 hlen]
    rfl
  | succ n ih =>
    intro s l h hlen
    have hne : l ≠ [] := by
      intro hl
      rw [hl] at hlen
      cases hlen
    simp only [sset.drain, h.pop_true_eq hne]
    rw [ih _ l.dropLast (h.dropLast hne) (by rw [List.length_dropLast, hlen]; omega)]
    exact (reverse_eq_getLast_cons hne).symm

theorem rep_drain_false [DecidableEq α] :
    ∀ (n : Nat) (s : sset α) (l : List α), Rep s l → l.length = n →
      sset.drain s false n = l := by
  intro n
  induction n with
  | zero =>
    intro s l _ hlen
    rw [List.length_eq_zero.1 hlen]
    rfl
  | succ n ih =>
    intro s l h hlen
    have hne : l ≠ [] := by
      intro hl
      rw [hl] at hlen
      cases hlen
    simp only [sset.drain, h.pop_false_eq hne]
    rw [ih _ l.tail (h.tail hne) (by rw [List.length_tail, hlen]; omega)]
    exact List.head_cons_tail l hne

/-! ### Construction from an iterable, and first-occurrence order -/

theorem rep_foldl [DecidableEq α] :
    ∀ (S : List α) (s : sset α) (l : List α), Rep s l →
      Rep (S.foldl sset.add s) (S.foldl addAbs l) := by
  intro S
  induction S with
  | nil => exact fun s l h => h
  | cons a S ih => exact fun s l h => ih (s.add a) (addAbs l a) (h.add a)

theorem rep_ofList [DecidableEq α] (S : List α) :
    Rep (sset.ofList S) (distinctInOrder S) :=
  rep_foldl S sset.empty [] rep_empty

theorem mem_addAbs [DecidableEq α] (l : List α) (k x : α) :
    x ∈ addAbs l k ↔ x ∈ l ∨ x = k := by
  rw [addAbs]
  by_cases hk : k ∈ l
  · rw [if_pos hk]
    constructor
    · exact Or.inl
    · rintro (hx | rfl)
      · exact hx
      · exact hk
  · rw [if_neg hk]
    simp

theorem addAbs_nodup [DecidableEq α] {l : List α} (h : l.Nodup) (k : α) :
    (addAbs l k).Nodup := by
  rw [addAbs]
  by_cases hk : k ∈ l
  · rwa [if_pos hk]
  · rw [if_neg hk, List.nodup_append]
    exact ⟨h, List.nodup_singleton _,
      fun x hx hxk => hk (by rwa [List.mem_singleton.1 hxk] at hx)⟩

theorem foldl_addAbs_nodup [DecidableEq α] :
    ∀ (S acc : List α), acc.Nodup → (S.foldl addAbs acc).Nodup := by
  intro S
  induction S with
  | nil => exact fun acc h => h
  | cons a S ih => exact fun acc h => ih (addAbs acc a) (addAbs_nodup h a)

theorem distinctInOrder_nodup [DecidableEq α] (S : List α) :
    (distinctInOrder S).Nodup :=
  foldl_addAbs_nodup S [] List.nodup_nil

theorem mem_foldl_addAbs [DecidableEq α] :
    ∀ (S acc : List α) (x : α), x ∈ S.foldl addAbs acc ↔ x ∈ acc ∨ x ∈ S := by
  intro S
  induction S with
  | nil => simp
  | cons a S ih =>
    intro acc x
    rw [List.foldl_cons, ih, mem_addAbs]
    constructor
    · rintro ((hx | rfl) | hx)
      · exact Or.inl hx
      · exact Or.inr (List.mem_cons_self _ _)
      · exact Or.inr (List.mem_cons_of_mem _ hx)
    · rintro (hx | hx)
      · exact Or.inl (Or.inl hx)
      · rcases List.mem_cons.1 hx with rfl | hx
        · exact Or.inl (Or.inr rfl)
        · exact Or.inr hx

theorem mem_distinctInOrder [DecidableEq α] (S : List α) (x : α) :
    x ∈ distinctInOrder S ↔ x ∈ S := by
  rw [distinctInOrder, mem_foldl_addAbs]
  simp

theorem addAbs_toFinset [DecidableEq α] (l : List α) (k : α) :
    (addAbs l k).toFinset = insert k l.toFinset := by
  ext x
  rw [List.mem_toFinset, mem_addAbs, Finset.mem_insert, List.mem_toFinset]
  tauto

theorem foldl_addAbs_length_card [DecidableEq α] :
    ∀ (S acc : List α), acc.Nodup →
      (S.foldl addAbs acc).length = (acc.toFinset ∪ S.toFinset).card := by
  intro S
  induction S with
  | nil =>
    intro acc h
    rw [List.foldl_nil, List.toFinset_nil, Finset.union_empty,
      List.toFinset_card_of_nodup h]
  | cons a S ih =>
    intro acc h
    rw [List.foldl_cons, ih (addAbs acc a) (addAbs_nodup h a), addAbs_toFinset,
      List.toFinset_cons, Finset.insert_union, Finset.union_insert]

theorem distinctInOrder_length [DecidableEq α] (S : List α) :
    (distinctInOrder S).length = S.toFinset.card := by
  rw [distinctInOrder, foldl_addAbs_length_card S [] List.nodup_nil,
    List.toFinset_nil, Finset.empty_union]

theorem foldl_addAbs_eq_append [DecidableEq α] :
    ∀ (S acc : List α),
      S.foldl addAbs acc
        = acc ++ (distinctInOrder S).filter (fun x => decide (x ∉ acc)) := by
  intro S
  induction S with
  | nil =>
    intro acc
    simp [distinctInOrder]
  | cons y S ih =>
    intro acc
    have hD : distinctInOrder (y :: S)
        = [y] ++ (distinctInOrder S).filter (fun x => decide (x ∉ ([y] : List α))) := by
      rw [distinctInOrder, List.foldl_cons, show addAbs [] y = [y] by simp [addAbs]]
      exact ih [y]
    rw [List.foldl_cons, ih (addAbs acc y), hD, List.filter_append]
    by_cases hy : y ∈ acc
    · rw [addAbs, if_pos hy]
      have h1 : List.filter (fun x => decide (x ∉ acc)) [y] = [] := by
        simp [hy]
      rw [h1, List.nil_append, List.filter_filter]
      refine congrArg (acc ++ ·) (List.filter_congr ?_)
      intro x _
      by_cases hxacc : x ∈ acc
      · simp [hxacc]
      · have hxy : x ≠ y := fun hcontra => hxacc (hcontra ▸ hy)
        simp [hxacc, hxy]
    · rw [addAbs, if_neg hy]
      have h1 : List.filter (fun x => decide (x ∉ acc)) [y] = [y] := by
        simp [hy]
      rw [h1, List.filter_filter, List.append_assoc, List.singleton_append,
        List.singleton_append]
      refine congrArg (acc ++ ·) (congrArg (y :: ·) (List.filter_congr ?_))
      intro x _
      by_cases hxacc : x ∈ acc
      · have hxy : x ∈ acc ++ [y] := List.mem_append_left _ hxacc
        simp [hxacc, hxy]
      · by_cases hxy : x = y
        · subst hxy
          simp
        · have hxay : x ∉ acc ++ [y] := by
            rw [List.mem_append, List.mem_singleton]
            rintro (hc | hc)
            · exact hxacc hc
            · exact hxy hc
          simp [hxacc, hxy, hxay]

theorem distinctInOrder_cons [DecidableEq α] (y : α) (S : List α) :
    distinctInOrder (y :: S)
      = y :: (distinctInOrder S).filter (fun x => decide (x ≠ y)) := by
  rw [distinctInOrder, List.foldl_cons, show addAbs [] y = [y] by simp [addAbs],
    foldl_addAbs_eq_append S [y], List.singleton_append]
  refine congrArg (y :: ·) (List.filter_congr ?_)
  intro x _
  simp

theorem distinctInOrder_pairwise [DecidableEq α] (S : List α) :
    (distinctInOrder S).Pairwise
      (fun a b => S.indexOf a < S.indexOf b) := by
  induction S with
  | nil => simp [distinctInOrder]
  | cons y S ih =>
    rw [distinctInOrder_cons, List.pairwise_cons]
    constructor
    · intro b hb
      rw [List.mem_filter, decide_eq_true_eq] at hb
      rw [List.indexOf_cons_self,
        List.indexOf_cons_ne S (fun hcontra => hb.2 hcontra.symm)]
      exact Nat.succ_pos _
    · have hsub : ((distinctInOrder S).filter (fun x => decide (x ≠ y))).Pairwise
          (fun a b => S.indexOf a < S.indexOf b) :=
        List.Pairwise.filter _ ih
      refine List.Pairwise.imp_of_mem ?_ hsub
      intro a b ha hb hr
      rw [List.mem_filter, decide_eq_true_eq] at ha hb
      rw [List.indexOf_cons_ne S (fun hcontra => ha.2 hcontra.symm),
        List.indexOf_cons_ne S (fun hcontra => hb.2 hcontra.symm)]
      exact Nat.succ_lt_succ hr

/-! ### Reachability and the structural bijection -/

theorem reachable_rep [DecidableEq α] {s : sset α} (h : Reachable s) :
    ∃ l, Rep s l := by
  induction h with
  | construct S => exact ⟨distinctInOrder S, rep_ofList S⟩
  | addStep s k _ ih =>
    obtain ⟨l, hl⟩ := ih
    exact ⟨addAbs l k, hl.add k⟩
  | discardStep s k _ ih =>
    obtain ⟨l, hl⟩ := ih
    exact ⟨l.erase k, hl.discard k⟩
  | popStep s last k t _ hok ih =>
    obtain ⟨l, hl⟩ := ih
    obtain ⟨_, ht⟩ := hl.pop_ok_rep hok
    exact ⟨l.erase k, ht ▸ hl.discard k⟩

theorem RepIds.mapSndNodup [DecidableEq α] {s : sset α} {ids : List Nat}
    {l : List α} (hr : RepIds s ids l) : (s.map.map Prod.snd).Nodup := by
  have hperm : (s.map.map Prod.snd).Perm ((l.zip ids).map Prod.snd) :=
    hr.mapPerm.map Prod.snd
  rw [List.map_snd_zip l ids (le_of_eq (seg_length hr.chain))] at hperm
  exact hperm.nodup_iff.2 hr.idsNodup

theorem RepIds.node_of_mem_map [DecidableEq α] {s : sset α} {ids : List Nat}
    {l : List α} (hr : RepIds s ids l) {k : α} {nid : Nat}
    (hmem : (k, nid) ∈ s.map) :
    nid ∈ ids ∧ ∃ n, s.heap nid = some n ∧ n.key = some k := by
  have hz : (k, nid) ∈ l.zip ids := hr.mapPerm.mem_iff.1 hmem
  obtain ⟨pr, nx, hn⟩ := seg_node_of_mem_zip hr.chain hz
  exact ⟨(List.of_mem_zip hz).2, ⟨some k, pr, nx⟩, hn, rfl⟩

theorem RepIds.mem_map_of_node [DecidableEq α] {s : sset α} {ids : List Nat}
    {l : List α} (hr : RepIds s ids l) {nid : Nat} (hmem : nid ∈ ids) :
    ∃ n k, s.heap nid = some n ∧ n.key = some k ∧ (k, nid) ∈ s.map := by
  obtain ⟨k, pr, nx, hn, hz⟩ := seg_mem_ids hr.chain hmem
  exact ⟨⟨some k, pr, nx⟩, k, hn, rfl, hr.mapPerm.mem_iff.2 hz⟩

/-! ### Equality semantics -/

theorem ssetEq_iff [DecidableEq α] {s t : sset α} {l m : List α}
    (h1 : Rep s l) (h2 : Rep t m) : ssetEq s t = true ↔ l = m := by
  rw [ssetEq, Bool.and_eq_true, decide_eq_true_eq, decide_eq_true_eq,
    h1.iterate_eq, h2.iterate_eq, h1.map_length, h2.map_length]
  constructor
  · exact fun h => h.2
  · intro h
    exact ⟨by rw [h], h⟩

theorem eqSet_iff [DecidableEq α] {s : sset α} {l : List α} (h : Rep s l)
    (other : List α) :
    eqSet s other = true ↔ ∀ x, x ∈ l ↔ x ∈ other := by
  rw [eqSet, decide_eq_true_eq, h.iterate_eq, Finset.ext_iff]
  constructor
  · intro hf x
    have := hf x
    rwa [List.mem_toFinset, List.mem_toFinset] at this
  · intro hf x
    rw [List.mem_toFinset, List.mem_toFinset]
    exact hf x

/-! ### The claims -/

/-- Claim C1: for every finite input sequence `S` (possibly with duplicates),
constructing an `sset` from `S` yields a set whose length equals the number of
distinct elements of `S`, and whose forward iteration yields each distinct
element of `S` exactly once, in order of first occurrence in `S`
(`distinctInOrder S` is the first-occurrence dedup of `S`; the last conjunct
pins its order to the order of first indices in `S`). -/
theorem C1_ofList_spec [DecidableEq α] (S : List α) :
    (sset.ofList S).iterate = distinctInOrder S ∧
      (sset.ofList S).size = S.toFinset.card ∧
      (distinctInOrder S).Nodup ∧
      (∀ x, x ∈ distinctInOrder S ↔ x ∈ S) ∧
      (distinctInOrder S).Pairwise (fun a b => S.indexOf a < S.indexOf b) := by
  have h := rep_ofList S
  exact ⟨h.iterate_eq,
    by rw [sset.size, h.map_length, distinctInOrder_length],
    distinctInOrder_nodup S, mem_distinctInOrder S, distinctInOrder_pairwise S⟩

theorem C1_witness : (sset.ofList [3, 1, 2, 1, 3] : sset Nat).iterate = [3, 1, 2] :=
  (C1_ofList_spec [3, 1, 2, 1, 3]).1.trans (by decide)

/-- Auxiliary: either `add` leaves the state untouched, or after it the key is
bound in the dict (to the address that was fresh). -/
theorem add_cases [DecidableEq α] (s : sset α) (x : α) :
    s.add x = s ∨ lookupId (s.add x).map x = some s.fresh := by
  unfold sset.add
  split
  · exact Or.inl rfl
  split
  · exact Or.inl rfl
  dsimp only
  split
  · exact Or.inl rfl
  split
  · exact Or.inl rfl
  right
  simp [lookupId]

/-- Claim C2: `add` is idempotent — `add(x); add(x)` produces literally the
same state (hence the same length and iteration order) as a single `add(x)`,
for every state, reachable or not. -/
theorem C2_add_idempotent [DecidableEq α] (s : sset α) (x : α) :
    (s.add x).add x = s.add x := by
  rcases add_cases s x with h | h
  · rw [h]
    exact h
  · exact add_of_lookup_some h

theorem C2_witness :
    ((sset.ofList [9] : sset Nat).add 4).add 4 = (sset.ofList [9]).add 4 :=
  C2_add_idempotent _ 4

/-- Claim C3: on a state holding order `l` with `x ∈ l`, `discard x` followed
by `add x` yields iteration order `l.erase x ++ [x]`: the previous order with
`x` removed and appended at the end, all other elements keeping their relative
order. -/
theorem C3_discard_add_moves_to_end [DecidableEq α] (s : sset α) (ids : List Nat)
    (l : List α) (x : α) (hr : RepIds s ids l) (_hx : x ∈ l) :
    s.iterate = l ∧ ((s.discard x).add x).iterate = l.erase x ++ [x] := by
  have h : Rep s l := ⟨ids, hr⟩
  refine ⟨h.iterate_eq, ?_⟩
  have h2 := (h.discard x).add x
  have hnot : x ∉ l.erase x := by
    intro hmem
    exact ((h.nodup.mem_erase_iff).1 hmem).1 rfl
  rw [h2.iterate_eq, addAbs, if_neg hnot]

theorem C3_witness :
    (sset.ofList [1, 2, 3] : sset Nat).iterate = [1, 2, 3] ∧
      (((sset.ofList [1, 2, 3] : sset Nat).discard 2).add 2).iterate = [1, 3, 2] := by
  have h := C3_discard_add_moves_to_end (sset.ofList [1, 2, 3]) [1, 2, 3] [1, 2, 3] 2
    (by decide) (by decide)
  exact ⟨h.1, h.2.trans (by decide)⟩

/-- Claim C4: `discard x` on a state that does not contain `x` raises nothing
and leaves the state literally unchanged (hence same size, membership and
iteration order), for every state, reachable or not. -/
theorem C4_discard_absent_noop [DecidableEq α] (s : sset α) (x : α)
    (h : s.contains x = false) : s.discard x = s := by
  rw [sset.contains] at h
  cases hv : lookupId s.map x with
  | none => exact discard_of_lookup_none hv
  | some v =>
    rw [hv] at h
    simp at h

theorem C4_witness :
    (sset.ofList [1, 2] : sset Nat).discard 5 = sset.ofList [1, 2] :=
  C4_discard_absent_noop _ 5 (by decide)

/-- Claim C5: on a well-formed state, `pop` fails with the `emptyContainer`
error (the spec's `EmptyContainer`, Python's `KeyError('set is empty')`)
exactly when the set is empty, succeeds exactly when it is nonempty, and
`emptyContainer` is the only error it can produce.  All other operations are
total by construction: `add`, `discard`, iteration and equality are plain
functions into non-error types. -/
theorem C5_pop_error_characterisation [DecidableEq α] (s : sset α)
    (ids : List Nat) (l : List α) (last : Bool) (hr : RepIds s ids l) :
    (s.pop last = .error .emptyContainer ↔ l = []) ∧
      ((∃ k t, s.pop last = .ok (k, t)) ↔ l ≠ []) ∧
      (∀ e, s.pop last = .error e → e = .emptyContainer) := by
  have h : Rep s l := ⟨ids, hr⟩
  obtain ⟨h1, h2⟩ := h.pop_error_iff last
  refine ⟨h1, h2, ?_⟩
  intro e he
  rcases eq_or_ne l [] with rfl | hne
  · rw [h.pop_empty_eq last] at he
    exact (Except.error.inj he).symm
  · obtain ⟨k, t, hok⟩ := h2.2 hne
    rw [hok] at he
    exact absurd he (fun hcontra => nomatch hcontra)

theorem C5_witness :
    (sset.ofList ([] : List Nat)).pop true = Except.error PopError.emptyContainer :=
  (C5_pop_error_characterisation (sset.ofList []) [] [] true (by decide)).1.2 rfl

/-- Claim C6: on a well-formed nonempty state with order `l`, `pop true`
removes and returns the last element of the iteration order and `pop false`
the first; consequently draining by repeated `pop true` yields `l.reverse` and
draining by repeated `pop false` yields `l`. -/
theorem C6_pop_ends_and_drain [DecidableEq α] (s : sset α) (ids : List Nat)
    (l : List α) (hr : RepIds s ids l) :
    (∀ hne : l ≠ [],
      s.pop true = .ok (l.getLast hne, s.discard (l.getLast hne)) ∧
        (s.discard (l.getLast hne)).iterate = l.dropLast) ∧
      (∀ hne : l ≠ [],
        s.pop false = .ok (l.head hne, s.discard (l.head hne)) ∧
          (s.discard (l.head hne)).iterate = l.tail) ∧
      s.drain true l.length = l.reverse ∧
      s.drain false l.length = l := by
  have h : Rep s l := ⟨ids, hr⟩
  refine ⟨?_, ?_, rep_drain_true l.length s l h rfl, rep_drain_false l.length s l h rfl⟩
  · intro hne
    exact ⟨h.pop_true_eq hne, (h.dropLast hne).iterate_eq⟩
  · intro hne
    exact ⟨h.pop_false_eq hne, (h.tail hne).iterate_eq⟩

theorem C6_witness :
    (sset.ofList [10, 20, 30] : sset Nat).drain true 3 = [30, 20, 10] ∧
      (sset.ofList [10, 20, 30] : sset Nat).drain false 3 = [10, 20, 30] := by
  have h := C6_pop_ends_and_drain (sset.ofList [10, 20, 30]) [1, 2, 3] [10, 20, 30]
    (by decide)
  exact ⟨h.2.2.1, h.2.2.2⟩

/-- Claim C7: on every well-formed state, the backward walk of `__reversed__`
produces exactly the reversal of the forward walk of `__iter__`. -/
theorem C7_reverse_iterate [DecidableEq α] (s : sset α) (ids : List Nat)
    (l : List α) (hr : RepIds s ids l) :
    s.reverseIterate = s.iterate.reverse := by
  have h : Rep s l := ⟨ids, hr⟩
  rw [h.iterate_eq, h.reverseIterate_eq]

theorem C7_witness :
    (sset.ofList [4, 5] : sset Nat).reverseIterate
      = (sset.ofList [4, 5] : sset Nat).iterate.reverse :=
  C7_reverse_iterate (sset.ofList [4, 5]) [1, 2] [4, 5] (by decide)

/-- Claim C8: equality between two `sset`s is order-aware — they compare equal
exactly when they hold the same elements in the same iteration order, whatever
insertion sequences produced them; equality between an `sset` and a
non-order-preserving set-like value compares the unordered element sets. -/
theorem C8_eq_semantics [DecidableEq α] (s t : sset α) (ids jds : List Nat)
    (l m : List α) (hr : RepIds s ids l) (ht : RepIds t jds m) :
    (ssetEq s t = true ↔ s.iterate = t.iterate) ∧
      (∀ other : List α,
        eqSet s other = true ↔ ∀ x, x ∈ s.iterate ↔ x ∈ other) := by
  have h1 : Rep s l := ⟨ids, hr⟩
  have h2 : Rep t m := ⟨jds, ht⟩
  constructor
  · rw [ssetEq_iff h1 h2, h1.iterate_eq, h2.iterate_eq]
  · intro other
    rw [eqSet_iff h1 other, h1.iterate_eq]

theorem C8_witness :
    ssetEq (sset.ofList [1, 2, 2, 3] : sset Nat) (sset.ofList [1, 2, 3]) = true ↔
      (sset.ofList [1, 2, 2, 3] : sset Nat).iterate
        = (sset.ofList [1, 2, 3] : sset Nat).iterate :=
  (C8_eq_semantics (sset.ofList [1, 2, 2, 3]) (sset.ofList [1, 2, 3])
    [1, 2, 3] [1, 2, 3] [1, 2, 3] [1, 2, 3] (by decide) (by decide)).1

/-- Claim C9: every state reachable from construction through `add`, `discard`
and `pop` satisfies the structural invariant: the dict keys are in bijection
with the non-sentinel nodes reachable by walking the linked list forward from
the sentinel — every dict entry points at a reachable node holding its key,
every reachable node is indexed by its key, and both sides of the
correspondence are duplicate-free. -/
theorem C9_structural_bijection [DecidableEq α] (s : sset α) (h : Reachable s) :
    s.forwardIds.Nodup ∧
      (s.map.map Prod.fst).Nodup ∧
      (s.map.map Prod.snd).Nodup ∧
      (∀ k nid, (k, nid) ∈ s.map →
        nid ∈ s.forwardIds ∧ ∃ n, s.heap nid = some n ∧ n.key = some k) ∧
      (∀ nid ∈ s.forwardIds,
        ∃ n k, s.heap nid = some n ∧ n.key = some k ∧ (k, nid) ∈ s.map) := by
  obtain ⟨l, ids, hr⟩ := reachable_rep h
  rw [hr.forwardIds_eq]
  refine ⟨hr.idsNodup, hr.mapKeysNodup, hr.mapSndNodup, ?_, ?_⟩
  · intro k nid hmem
    exact hr.node_of_mem_map hmem
  · intro nid hmem
    exact hr.mem_map_of_node hmem

theorem C9_witness : (sset.ofList [7, 8] : sset Nat).forwardIds.Nodup :=
  (C9_structural_bijection (sset.ofList [7, 8]) (Reachable.construct [7, 8])).1

/-- Claim C10: equality between an `sset` and any non-`sset` value — e.g. a
list, ordered and possibly with duplicates — compares the unordered sets of
distinct elements of both sides: it holds exactly when both sides have the
same distinct elements, and it is invariant under reordering and deduplication
of the other operand. -/
theorem C10_eq_non_sset_unordered [DecidableEq α] (s : sset α) (ids : List Nat)
    (l : List α) (hr : RepIds s ids l) (other : List α) :
    (eqSet s other = true ↔ ∀ x, x ∈ l ↔ x ∈ other) ∧
      eqSet s other = eqSet s other.reverse ∧
      eqSet s other = eqSet s (distinctInOrder other) := by
  have h : Rep s l := ⟨ids, hr⟩
  refine ⟨eqSet_iff h other, ?_, ?_⟩
  · rw [eqSet, eqSet, List.toFinset_reverse]
  · rw [eqSet, eqSet]
    have hfin : (distinctInOrder other).toFinset = other.toFinset := by
      ext x
      rw [List.mem_toFinset, List.mem_toFinset, mem_distinctInOrder]
    rw [hfin]

theorem C10_witness :
    (eqSet (sset.ofList [1, 2, 3] : sset Nat) [3, 3, 2, 1, 1] = true ↔
        ∀ x, x ∈ [1, 2, 3] ↔ x ∈ [3, 3, 2, 1, 1]) ∧
      eqSet (sset.ofList [1, 2, 3] : sset Nat) [3, 3, 2, 1, 1]
          = eqSet (sset.ofList [1, 2, 3]) ([3, 3, 2, 1, 1] : List Nat).reverse ∧
      eqSet (sset.ofList [1, 2, 3] : sset Nat) [3, 3, 2, 1, 1]
          = eqSet (sset.ofList [1, 2, 3]) (distinctInOrder [3, 3, 2, 1, 1]) :=
  C10_eq_non_sset_unordered (sset.ofList [1, 2, 3]) [1, 2, 3] [1, 2, 3]
    (by decide) [3, 3, 2, 1, 1]

end Batbelt
